import Mathlib

/-!
Verification of the page-session model and export pipeline of the
pdf-manager repository (`src/pdf.jsx`).

The embedding mirrors the component `PdfPageOrganizerFinal`:
a session is the `previews` object, an ordered association of document
name to its ordered list of page descriptors; the operations
`handleFiles`, `toggleDelete`, `applyBulkDeleteAll`, `onDragEnd` and
`processPDFs` are translated as pure functions over that state.
JavaScript strings are handled at the character-list level so that the
splitting and numeric coercion of the bulk-delete parser stay
explicit and executable.
-/

namespace PdfManager

/-! ### Character-level string utilities and JavaScript numbers

`applyBulkDeleteAll` works on the raw text of the delete-pages input
through `String.prototype.split`, `String.prototype.trim`,
`String.prototype.includes` and the `Number` coercion.  These are
modelled on `List Char`, with `Number`'s string grammar implemented in
full (decimal literals with fraction and exponent, hex/octal/binary
integers, `Infinity`, signs, the ECMAScript whitespace set). -/

/-- The ECMAScript WhiteSpace and LineTerminator characters - the set
stripped by `String.prototype.trim` and by the whitespace rule of
`Number`'s string grammar: TAB, LF, VT, FF, CR, SP, NBSP, ZWNBSP, the
Unicode category-Zs spaces, and the LS and PS line separators. -/
def jsWhitespace (c : Char) : Bool :=
  c = ' ' || c = '\t' || c = '\n' || c = '\r' ||
  c.toNat = 0x0B || c.toNat = 0x0C || c.toNat = 0xA0 || c.toNat = 0xFEFF ||
  c.toNat = 0x1680 || (0x2000 <= c.toNat && c.toNat <= 0x200A) ||
  c.toNat = 0x2028 || c.toNat = 0x2029 || c.toNat = 0x202F ||
  c.toNat = 0x205F || c.toNat = 0x3000

/-- JavaScript `s.trim()`: remove leading and trailing ECMAScript
whitespace. -/
def trimChars (cs : List Char) : List Char :=
  ((cs.dropWhile jsWhitespace).reverse.dropWhile jsWhitespace).reverse

/-- JavaScript `s.split(sep)` for a single-character separator applied to
the character list of `s`: `"".split(",")` is `[""]`, and a trailing
separator yields a trailing empty piece, exactly as in JavaScript. -/
def splitOnChar (c : Char) : List Char → List (List Char)
  | [] => [[]]
  | a :: rest =>
    if a = c then [] :: splitOnChar c rest
    else
      match splitOnChar c rest with
      | [] => [[a]]
      | t :: ts => (a :: t) :: ts

/-- A finite JavaScript number as produced by `Number` on a string,
represented exactly: every numeric string literal (a decimal literal
with optional fraction and decimal exponent, or a hex/octal/binary
integer) denotes the decimal rational `m / 10 ^ k`.  The representation
is kept canonical - `k = 0`, or `10` does not divide `m` - so that
structural equality coincides with value equality, mirroring the
SameValueZero equality a JavaScript `Set` applies to its number
elements.  The one idealization: values are kept exact instead of being
rounded to binary64, so the model agrees with JavaScript on every
literal whose value a double represents exactly - in particular on
every integer below `2 ^ 53`, hence on every page number - and differs
only on literals that need rounding (roughly 16 or more significant
digits) or that overflow to `Infinity`. -/
structure JsRat where
  m : Int
  k : Nat
deriving Repr, DecidableEq

/-- Canonicalize `m / 10 ^ k` by stripping common factors of 10. -/
def norm10 : Int → Nat → JsRat
  | m, 0 => ⟨m, 0⟩
  | m, k + 1 => if m % 10 = 0 then norm10 (m / 10) k else ⟨m, k + 1⟩

/-- The canonical representation of `m / 10 ^ k`. -/
def mkJsRat (m : Int) (k : Nat) : JsRat := norm10 m k

/-- A page number as a JavaScript number (integers are canonical). -/
def JsRat.ofNat (n : Nat) : JsRat := ⟨(n : Int), 0⟩

/-- The comparison `i <= e` of two finite doubles, exact on this
fragment: cross-multiplied integer comparison of `m / 10 ^ k` values. -/
def jsLeB (a b : JsRat) : Bool :=
  decide (a.m * (10 : Int) ^ b.k ≤ b.m * (10 : Int) ^ a.k)

/-- Number of iterations of `for (let i = s; i <= e; i++)` when
`s <= e`: `floor (e - s) + 1`, computed by floor division of the
cross-multiplied difference. -/
def rangeCount (s e : JsRat) : Nat :=
  (Int.fdiv (e.m * (10 : Int) ^ s.k - s.m * (10 : Int) ^ e.k)
    ((10 : Int) ^ (s.k + e.k))).toNat + 1

/-- The values visited by `for (let i = s; i <= e; i++)` with finite
bounds: `s, s + 1, ...` while `i <= e`; empty when `e < s`.  Adding 1
to a double below `2 ^ 53` is exact, so the exact decimal model matches
the loop. -/
def rangeIncl (s e : JsRat) : List JsRat :=
  if jsLeB s e then
    (List.range (rangeCount s e)).map fun j =>
      mkJsRat (s.m + (j : Int) * (10 : Int) ^ s.k) s.k
  else []

/-- A non-NaN JavaScript number: a finite value or an infinity.  NaN is
the `none` of the surrounding `Option`. -/
inductive JsNum where
  | fin (v : JsRat)
  | posInf
  | negInf
deriving Repr, DecidableEq

/-- Value of a list of decimal digits read left to right. -/
def digitsVal (cs : List Char) : Nat :=
  cs.foldl (fun n c => 10 * n + (c.toNat - 48)) 0

/-- Value of one hexadecimal digit, `none` for any other character. -/
def hexDigitVal (c : Char) : Option Nat :=
  if '0' ≤ c && c ≤ '9' then some (c.toNat - 48)
  else if 'a' ≤ c && c ≤ 'f' then some (c.toNat - 87)
  else if 'A' ≤ c && c ≤ 'F' then some (c.toNat - 55)
  else none

/-- The `0x` / `0o` / `0b` integer forms of `Number`'s string grammar:
no sign, at least one digit of the base. -/
def parseRadix (base : Nat) (ds : List Char) : Option JsNum :=
  if !ds.isEmpty &&
      ds.all (fun c => ((hexDigitVal c).map fun v => decide (v < base)).getD false) then
    some (.fin (mkJsRat
      ((ds.foldl (fun n c => base * n + (hexDigitVal c).getD 0) 0 : Nat) : Int) 0))
  else none

/-- The mantissa of a decimal literal - `digits`, `digits.digits?` or
`.digits` - as the exact scaled integer `(m, k)` standing for
`m / 10 ^ k`; `none` when the shape is not one of the three. -/
def parseMantissa (cs : List Char) : Option (Int × Nat) :=
  let ip := cs.takeWhile (· ≠ '.')
  match cs.dropWhile (· ≠ '.') with
  | [] =>
    if !ip.isEmpty && ip.all Char.isDigit then some ((digitsVal ip : Int), 0) else none
  | _ :: fp =>
    if ip.all Char.isDigit && fp.all Char.isDigit && !(ip.isEmpty && fp.isEmpty) then
      some ((digitsVal (ip ++ fp) : Int), fp.length)
    else none

/-- The exponent part after `e` / `E`: an optional sign and at least one
digit. -/
def expVal (cs : List Char) : Option Int :=
  match cs with
  | '+' :: ds =>
    if !ds.isEmpty && ds.all Char.isDigit then some (digitsVal ds) else none
  | '-' :: ds =>
    if !ds.isEmpty && ds.all Char.isDigit then some (-(digitsVal ds : Int)) else none
  | ds =>
    if !ds.isEmpty && ds.all Char.isDigit then some (digitsVal ds) else none

/-- Scale a mantissa by `10 ^ exponent`, exactly. -/
def applyExp (p : Int × Nat) : Int → JsRat
  | Int.ofNat e => mkJsRat (p.1 * (10 : Int) ^ e) p.2
  | Int.negSucc e => mkJsRat p.1 (p.2 + (e + 1))

/-- An unsigned decimal literal with optional exponent. -/
def parseDec (cs : List Char) : Option JsRat :=
  let mant := cs.takeWhile (fun c => c ≠ 'e' && c ≠ 'E')
  match cs.dropWhile (fun c => c ≠ 'e' && c ≠ 'E') with
  | [] => (parseMantissa mant).map fun p => mkJsRat p.1 p.2
  | _ :: etail =>
    match parseMantissa mant, expVal etail with
    | some p, some ex => some (applyExp p ex)
    | _, _ => none

/-- Exact negation (canonical form is preserved up to the sign). -/
def jsNegate (v : JsRat) : JsRat := mkJsRat (-v.m) v.k

/-- The body of a signed decimal literal: the keyword `Infinity` or a
decimal literal. -/
def parseUnsignedDec (cs : List Char) (neg : Bool) : Option JsNum :=
  if cs = "Infinity".toList then some (if neg then .negInf else .posInf)
  else (parseDec cs).map fun v => .fin (if neg then jsNegate v else v)

/-- A decimal literal or `Infinity` with an optional leading sign. -/
def parseSignedDec (cs : List Char) : Option JsNum :=
  match cs with
  | '+' :: rest => parseUnsignedDec rest false
  | '-' :: rest => parseUnsignedDec rest true
  | _ => parseUnsignedDec cs false

/-- JavaScript `Number(s)` on the character list of `s`: strip the
ECMAScript whitespace; the empty remainder is `0`; then either an
unsigned hex/octal/binary integer or a signed decimal literal /
`Infinity`; everything else is `NaN`, modelled as `none`.  (In the
program the minus sign can never reach a call site - the pieces are
produced by splitting on `-` - but the sign rules are implemented
anyway.) -/
def jsNumber (cs : List Char) : Option JsNum :=
  let t := trimChars cs
  if t.isEmpty then some (.fin (mkJsRat 0 0))
  else
    match t with
    | '0' :: c :: rest =>
      if c = 'x' || c = 'X' then parseRadix 16 rest
      else if c = 'o' || c = 'O' then parseRadix 8 rest
      else if c = 'b' || c = 'B' then parseRadix 2 rest
      else parseSignedDec t
    | _ => parseSignedDec t

/-- The values the loop `for (let i = s; i <= e; i++)` adds to the set,
for the bound cases in which it terminates: both bounds finite give the
inclusive range; a `NaN` bound makes the comparison false, so the body
never runs; the terminating infinite-bound cases (`e = -Infinity`, or
`s = +Infinity` with a finite end) add no value either. -/
def segContribution : Option JsNum → Option JsNum → List JsRat
  | some (.fin s), some (.fin e) => rangeIncl s e
  | _, _ => []

/-- Whether `for (let i = s; i <= e; i++)` terminates in the source: it
loops forever when the start is `-Infinity` (adding 1 leaves it
unchanged) or when the end is `+Infinity` and the start is not greater
(the counter never exceeds it). -/
def segTerminates : Option JsNum → Option JsNum → Bool
  | none, _ => true
  | _, none => true
  | some (.fin _), some (.fin _) => true
  | some (.fin _), some .negInf => true
  | some (.fin _), some .posInf => false
  | some .posInf, some (.fin _) => true
  | some .posInf, some .posInf => false
  | some .posInf, some .negInf => true
  | some .negInf, some _ => false

/-- The page numbers one comma-separated term adds to the `toDelete` set
(`applyBulkDeleteAll`, `src/pdf.jsx` lines 170-177).  A term containing
`-` is split on `-` and the first two pieces become the loop bounds; a
term without `-` adds its numeric value.  A `NaN` or infinite value is
added to the JavaScript `Set` but can never equal an integer page
number, so it is modelled as no contribution. -/
def termContribution (r : List Char) : List JsRat :=
  if r.contains '-' then
    match splitOnChar '-' r with
    | p0 :: p1 :: _ => segContribution (jsNumber p0) (jsNumber p1)
    | _ => []
  else
    match jsNumber r with
    | some (.fin q) => [q]
    | _ => []

/-- Whether one term's range loop terminates in the source. -/
def termTerminates (r : List Char) : Bool :=
  if r.contains '-' then
    match splitOnChar '-' r with
    | p0 :: p1 :: _ => segTerminates (jsNumber p0) (jsNumber p1)
    | _ => true
  else true

/-- An expression on which the source's `applyBulkDeleteAll` terminates:
none of its range loops has an infinite end bound with a not-greater
start.  The range-selector theorems are stated under this condition,
since a non-terminating run produces no session state at all. -/
def inputTerminates (input : String) : Bool :=
  (splitOnChar ',' input.toList).all termTerminates

/-- The `toDelete` set built by the `ranges.forEach` loop: the union of
every term's contribution, modelled as a list whose membership is the
JavaScript `Set` membership (SameValueZero, i.e. value equality, which
canonical `JsRat` equality implements). -/
def buildToDelete (terms : List (List Char)) : List JsRat :=
  terms.foldl (fun acc r => acc ++ termContribution r) []

/-! ### Data model -/

/-- One entry of a document's editable page list, as created by the
preview pipeline: `{ id, img, pageNo, deleted }` (`src/pdf.jsx`
lines 129-134).  `pageNo` is the 1-based original page index. -/
structure PageDescriptor where
  id : String
  img : String
  pageNo : Nat
  deleted : Bool
deriving Repr, DecidableEq

/-- The ordered page-descriptor list of one document. -/
abbrev Doc := List PageDescriptor

/-- The `previews` state: document name mapped to its page list, in
insertion order.  JavaScript object keys are unique; the association
list keeps the first binding authoritative. -/
abbrev Session := List (String × Doc)

/-- JavaScript `prev[file].pages` lookup: the page list of the first
binding of `name`, empty when the document is absent. -/
def pagesOf : Session → String → Doc
  | [], _ => []
  | (k, v) :: rest, name => if k = name then v else pagesOf rest name

/-- The spread update `{ ...prev, [file]: { pages: g(prev[file].pages) } }`:
every binding of `file` is rewritten through `g`, all others kept. -/
def updateDoc (prev : Session) (file : String) (g : Doc → Doc) : Session :=
  prev.map fun nd => if nd.1 = file then (nd.1, g nd.2) else nd

/-! ### Upload -/

/-- A member of the `FileList` handed to `handleFiles`: name, declared
media type and byte size. -/
structure JsFile where
  name : String
  type : String
  size : Nat
deriving Repr, DecidableEq

/-- Upload handler (`src/pdf.jsx` lines 88-93): keep exactly the blobs
whose declared media type is `application/pdf`, in batch order. -/
def handleFiles (list : List JsFile) : List JsFile :=
  list.filter fun f => f.type == "application/pdf"

/-! ### Per-page toggle -/

/-- Toggle delete (`src/pdf.jsx` lines 150-161): flip `deleted` on every
descriptor of `file` whose `pageNo` matches, keep the rest. -/
def toggleDelete (file : String) (pageNo : Nat) (prev : Session) : Session :=
  updateDoc prev file fun pages =>
    pages.map fun p =>
      if p.pageNo = pageNo then { p with deleted := !p.deleted } else p

/-! ### Bulk range delete -/

/-- Bulk delete (`src/pdf.jsx` lines 164-191): a blank input is a no-op
(`if (!deleteInput.trim()) return`); otherwise the input is split on `,`
into the `toDelete` set and every document's descriptors get
`deleted := deleted || toDelete.has(pageNo)`. -/
def applyBulkDeleteAll (deleteInput : String) (prev : Session) : Session :=
  if (trimChars deleteInput.toList).isEmpty then prev
  else
    let toDelete := buildToDelete (splitOnChar ',' deleteInput.toList)
    prev.map fun nd =>
      (nd.1, nd.2.map fun p =>
        { p with deleted := p.deleted ||
            decide (JsRat.ofNat p.pageNo ∈ toDelete) })

/-! ### Drag reorder -/

/-- Modelled from the spec: `arrayMove` is supplied by the external
`@dnd-kit/sortable` package, whose source is not part of this
repository.  Section 4.4 of the design gives its semantics: remove the
element at the `from` position and reinsert it at the `to` element's
original position (standard array-move), and the whole move is a no-op
when either id is absent, i.e. when a position is missing. -/
def arrayMove (pages : Doc) (fromIdx toIdx : Option Nat) : Doc :=
  match fromIdx, toIdx with
  | some i, some j =>
    match pages[i]? with
    | some x => (pages.eraseIdx i).insertIdx j x
    | none => pages
  | _, _ => pages

/-- Drag handler (`src/pdf.jsx` lines 194-210): return unchanged when
there is no drop target or the dragged and target ids coincide;
otherwise move the descriptor with `active.id` to the position of the
one with `over.id` inside `file`'s list.  JavaScript `findIndex`
returning `-1` is modelled by `none`. -/
def onDragEnd (file : String) (activeId : String) (over? : Option String)
    (prev : Session) : Session :=
  match over? with
  | none => prev
  | some overId =>
    if activeId = overId then prev
    else
      updateDoc prev file fun pages =>
        arrayMove pages
          (pages.findIdx? fun p => p.id == activeId)
          (pages.findIdx? fun p => p.id == overId)

/-- A sequence of drag operations `(file, active.id, over?.id)` applied
in order. -/
def applyDrags (ops : List (String × String × Option String)) (s : Session) :
    Session :=
  ops.foldl (fun st op => onDragEnd op.1 op.2.1 op.2.2 st) s

/-! ### Export -/

/-- The per-document export loop (`src/pdf.jsx` lines 259-263): walk the
current descriptor list; skip deleted descriptors; for the rest copy the
source page at the 0-based index `pageNo - 1` and append it to the
output.  The source document is the list of its pages; a copy at an
out-of-range index is the codec throwing, hence `none`. -/
def exportPagesLoop (src : List α) : Doc → List α → Option (List α)
  | [], acc => some acc
  | p :: rest, acc =>
    if p.deleted then exportPagesLoop src rest acc
    else
      match src[p.pageNo - 1]? with
      | some pg => exportPagesLoop src rest (acc ++ [pg])
      | none => none

/-- Export of one document: run the loop from the freshly created empty
output document. -/
def exportDoc (src : List α) (pages : Doc) : Option (List α) :=
  exportPagesLoop src pages []

/-! ### Busy flag of the export operation -/

/-- The component state touched by `processPDFs` around the export body:
the `loading` flag and the `cursor-loading` class on `document.body`. -/
structure UIState where
  loading : Bool
  cursorLoading : Bool
deriving Repr, DecidableEq

/-- Semantics of `try { body } finally { fin }` for a finaliser that
cannot throw: the finaliser runs on the state the body left behind, on
the normal exit and on the throwing exit alike, and the body's outcome
is passed through. -/
def tryFinally (body : σ → σ × Except ε β) (fin : σ → σ) (st : σ) :
    σ × Except ε β :=
  let r := body st
  (fin r.1, r.2)

/-- Control-flow skeleton of `processPDFs` (`src/pdf.jsx` lines 247-302):
set `loading` and the busy cursor, run the export body - the codec
loads, page copies, serialisation and delivery, any of which may throw,
abstracted as `body` - and in the `finally` block clear both flags. -/
def processPDFsState (body : UIState → UIState × Except ε β) (st : UIState) :
    UIState × Except ε β :=
  tryFinally body
    (fun s => { s with loading := false, cursorLoading := false })
    { st with loading := true, cursorLoading := true }

/-! ### Spec-side definitions for the range-selector claim -/

/-- Inclusive range of page numbers, for the claim-side definitions. -/
def natRangeIncl (s e : Nat) : List Nat :=
  (List.range (e + 1 - s)).map (s + ·)

/-- A term that is a single positive integer literal in the sense of the
specification's grammar (whitespace-trimmed decimal digits, value at
least 1).  Written from the claim's words, for comparison with the
source parser. -/
def isPosIntLit (r : List Char) : Bool :=
  let t := trimChars r
  !t.isEmpty && t.all Char.isDigit && decide (1 ≤ digitsVal t)

/-- The delete-set one term contributes according to the claim: a single
positive integer contributes itself, a well-formed `start-end` range of
positive integers contributes the inclusive range, and any other
(malformed or non-numeric) term contributes nothing.  Written from the
claim's words, for comparison with the source parser. -/
def specTermSet (r : List Char) : List Nat :=
  if isPosIntLit r then [digitsVal (trimChars r)]
  else
    match splitOnChar '-' r with
    | [a, b] =>
      if isPosIntLit a && isPosIntLit b then
        natRangeIncl (digitsVal (trimChars a)) (digitsVal (trimChars b))
      else []
    | _ => []

/-- The delete-set the claim predicts for a whole expression: the union
of the well-formed terms only. -/
def specWellFormedSet (input : String) : List Nat :=
  (splitOnChar ',' input.toList).foldl (fun acc r => acc ++ specTermSet r) []

/-- Projection of a session to everything except the deletion flags:
document names in order, and for each document the `id`, `pageNo` and
thumbnail reference of each descriptor in order. -/
def sessionShape (s : Session) : List (String × List (String × Nat × String)) :=
  s.map fun nd => (nd.1, nd.2.map fun p => (p.id, p.pageNo, p.img))

/-! ### Helper lemmas -/

/-- Unfolding equation of `pagesOf` on a non-empty session. -/
theorem pagesOf_cons (k : String) (v : Doc) (rest : Session) (name : String) :
    pagesOf ((k, v) :: rest) name = if k = name then v else pagesOf rest name :=
  rfl

/-- Unfolding equation of `updateDoc` on a non-empty session. -/
theorem updateDoc_cons (k : String) (v : Doc) (rest : Session) (file : String)
    (g : Doc → Doc) :
    updateDoc ((k, v) :: rest) file g =
      (if k = file then (k, g v) else (k, v)) :: updateDoc rest file g := by
  rw [updateDoc, List.map_cons]
  by_cases hk : k = file
  · rw [if_pos hk]
    rfl
  · rw [if_neg hk]
    rfl

/-- Lookup through the per-document update: the updated document's list
goes through `g`, any other lookup is untouched.  The side condition
`g [] = []` covers lookup of a name the session does not bind. -/
theorem pagesOf_updateDoc (s : Session) (file : String) (g : Doc → Doc)
    (name : String) (hg : g [] = []) :
    pagesOf (updateDoc s file g) name =
      if name = file then g (pagesOf s file) else pagesOf s name := by
  induction s with
  | nil =>
    by_cases hn : name = file
    · simp [updateDoc, pagesOf, hn, hg]
    · simp [updateDoc, pagesOf, hn]
  | cons nd rest ih =>
    obtain ⟨k, v⟩ := nd
    by_cases hk : k = file <;> by_cases hn : k = name
    · subst hk; subst hn
      simp [updateDoc_cons, pagesOf_cons]
    · subst hk
      have hnk : ¬ name = k := fun h => hn h.symm
      simp [updateDoc_cons, pagesOf_cons, hn, hnk, ih]
    · subst hn
      simp [updateDoc_cons, pagesOf_cons, hk]
    · simp [updateDoc_cons, pagesOf_cons, hk, hn, ih]

/-- Lookup through a value-only map over every binding. -/
theorem pagesOf_mapValues (s : Session) (g : Doc → Doc) (name : String)
    (hg : g [] = []) :
    pagesOf (s.map fun nd => (nd.1, g nd.2)) name = g (pagesOf s name) := by
  induction s with
  | nil => simpa [pagesOf] using hg.symm
  | cons nd rest ih =>
    obtain ⟨k, v⟩ := nd
    by_cases hn : k = name <;> simp [pagesOf, hn, ih]

/-- An update that touches no bound name leaves the session unchanged. -/
theorem updateDoc_of_not_mem_keys (file : String) (g : Doc → Doc) :
    ∀ s : Session, file ∉ s.map Prod.fst → updateDoc s file g = s
  | [], _ => rfl
  | (k, v) :: rest, h => by
    simp only [List.map_cons, List.mem_cons, not_or] at h
    have hk : ¬ k = file := fun hkk => h.1 hkk.symm
    rw [updateDoc_cons, if_neg hk, updateDoc_of_not_mem_keys file g rest h.2]

/-- Membership in the accumulating fold that builds the delete set: an
element is in the result exactly when it is in the seed or in some
term's contribution. -/
theorem mem_foldl_append {β γ : Type} (f : γ → List β) (n : β) :
    ∀ (ts : List γ) (acc : List β),
      (n ∈ ts.foldl (fun a r => a ++ f r) acc ↔ n ∈ acc ∨ ∃ r ∈ ts, n ∈ f r)
  | [], acc => by simp
  | t :: ts, acc => by
    rw [List.foldl_cons, mem_foldl_append f n ts]
    simp [List.mem_append, or_assoc]

/-- Membership form of the built delete set. -/
theorem mem_buildToDelete (terms : List (List Char)) (x : JsRat) :
    x ∈ buildToDelete terms ↔ ∃ r ∈ terms, x ∈ termContribution r := by
  simpa [buildToDelete] using mem_foldl_append termContribution x terms []

/-- Boolean bridge: membership in the built delete set, as the decision
of the existence of a contributing term. -/
theorem decide_mem_buildToDelete (terms : List (List Char)) (x : JsRat) :
    decide (x ∈ buildToDelete terms)
      = decide (∃ r ∈ terms, x ∈ termContribution r) :=
  decide_eq_decide.mpr (mem_buildToDelete terms x)

/-- Marking a descriptor against the same delete set twice is the same
as marking it once. -/
theorem bulkMark_twice (td : List JsRat) (p : PageDescriptor) :
    (fun q : PageDescriptor =>
        { q with deleted := q.deleted || decide (JsRat.ofNat q.pageNo ∈ td) })
      ((fun q : PageDescriptor =>
        { q with deleted := q.deleted || decide (JsRat.ofNat q.pageNo ∈ td) }) p)
    = { p with deleted := p.deleted || decide (JsRat.ofNat p.pageNo ∈ td) } := by
  simp [Bool.or_assoc]

/-- On a non-blank input, the bulk delete rewrites each document's list
pointwise with the OR against the built delete set. -/
theorem applyBulk_pagesOf (input : String) (s : Session) (name : String)
    (hne : (trimChars input.toList).isEmpty = false) :
    pagesOf (applyBulkDeleteAll input s) name =
      (pagesOf s name).map fun p =>
        { p with deleted := p.deleted ||
            decide (JsRat.ofNat p.pageNo ∈
              buildToDelete (splitOnChar ',' input.toList)) } := by
  have hguard : ¬ ((trimChars input.toList).isEmpty = true) := by
    rw [hne]
    decide
  have hunfold : applyBulkDeleteAll input s
      = s.map fun nd => (nd.1, nd.2.map fun p =>
          { p with deleted := p.deleted ||
              decide (JsRat.ofNat p.pageNo ∈
                buildToDelete (splitOnChar ',' input.toList)) }) := by
    rw [applyBulkDeleteAll, if_neg hguard]
  rw [hunfold]
  exact pagesOf_mapValues s _ name rfl

/-! ### Claims -/

/-- C9: for every input batch, the upload handler accepts exactly the
blobs whose declared media type equals `application/pdf`, silently
dropping all others; the accepted files keep their original batch order
(the result is a sublist of the batch), and a batch with no matching
blob yields an empty file set. -/
theorem upload_filters_pdf_only (l : List JsFile) :
    (∀ f, f ∈ handleFiles l ↔ f.type = "application/pdf" ∧ f ∈ l) ∧
    (handleFiles l).Sublist l ∧
    ((∀ f ∈ l, f.type ≠ "application/pdf") → handleFiles l = []) := by
  refine ⟨fun f => ?_, List.filter_sublist l, fun h => ?_⟩
  · simp [handleFiles, List.mem_filter, and_comm]
  · rw [handleFiles, List.filter_eq_nil_iff]
    intro f hf
    simpa using h f hf

/-- C8: the export operation's busy flag (and the busy cursor) are
cleared on every exit path of `processPDFs`: whatever the export body
does - succeed or throw at any codec, serialisation or delivery step -
the state after the operation has `loading = false`. -/
theorem export_clears_busy_flag {ε β : Type} (body : UIState → UIState × Except ε β)
    (st : UIState) :
    ((processPDFsState body st).1).loading = false ∧
    ((processPDFsState body st).1).cursorLoading = false :=
  ⟨rfl, rfl⟩

/-- C10: applying the bulk range-delete changes at most the `deleted`
field of each descriptor: the documents, their order, each document's
descriptor count and order, and every descriptor's id, page number and
thumbnail reference are identical before and after. -/
theorem bulk_delete_frame (input : String) (s : Session) :
    sessionShape (applyBulkDeleteAll input s) = sessionShape s := by
  rw [applyBulkDeleteAll]
  split
  · rfl
  · simp only [sessionShape, List.map_map]
    apply List.map_congr_left
    intro nd _
    simp only [Function.comp_apply]
    rw [List.map_map]
    rfl

/-- C3 counterexample: on the expression `-3` the claim as stated fails.
The single term `-3` is malformed (neither a positive integer nor a
`start-end` range of positive integers), so the claimed effective set -
the union of the well-formed terms - is empty and no page may be
deleted; but the source splits the term on `-`, coerces the empty left
piece to `0`, and deletes pages 1, 2 and 3 of a three-page document. -/
theorem bulk_delete_wellformed_union_cex :
    specWellFormedSet "-3" = [] ∧
    pagesOf (applyBulkDeleteAll "-3"
        [("a", [⟨"a-page-1", "thumb1", 1, false⟩, ⟨"a-page-2", "thumb2", 2, false⟩,
                ⟨"a-page-3", "thumb3", 3, false⟩])]) "a"
      = [⟨"a-page-1", "thumb1", 1, true⟩, ⟨"a-page-2", "thumb2", 2, true⟩,
         ⟨"a-page-3", "thumb3", 3, true⟩] ∧
    pagesOf (applyBulkDeleteAll "-3"
        [("a", [⟨"a-page-1", "thumb1", 1, false⟩, ⟨"a-page-2", "thumb2", 2, false⟩,
                ⟨"a-page-3", "thumb3", 3, false⟩])]) "a"
      ≠ (pagesOf
          [("a", [⟨"a-page-1", "thumb1", 1, false⟩, ⟨"a-page-2", "thumb2", 2, false⟩,
                  ⟨"a-page-3", "thumb3", 3, false⟩])] "a").map
          (fun p =>
            { p with deleted := p.deleted ||
                (specWellFormedSet "-3").contains p.pageNo }) :=
  ⟨by decide, by decide, by decide⟩

/-- C3 (amended): for every non-blank range expression on which the
source's range loops terminate, and for every document, the effective
deletion set is the union of the per-term contributions, so no term can
discard another term's contribution; a non-numeric term - a dashless
term that `Number` coerces to `NaN`, or a dashed term one of whose
first two dash-separated pieces coerces to `NaN` - contributes nothing
(`"1,x,3-4"` deletes exactly pages 1, 3 and 4); but a dashed term whose
pieces are numerically coercible is not excluded even when malformed:
an empty piece coerces to 0, so `"-3"` contributes the range 0-3. -/
theorem bulk_delete_union_of_term_contributions (input : String) (s : Session)
    (name : String) (hne : (trimChars input.toList).isEmpty = false)
    (hterm : inputTerminates input = true) :
    pagesOf (applyBulkDeleteAll input s) name =
      (pagesOf s name).map fun p =>
        { p with deleted := p.deleted ||
            decide (∃ r ∈ splitOnChar ',' input.toList,
              JsRat.ofNat p.pageNo ∈ termContribution r) } := by
  rw [applyBulk_pagesOf input s name hne]
  apply List.map_congr_left
  intro p _
  rw [decide_mem_buildToDelete]

/-- C3 witness: the claim's own example, `"1,x,3-4"` on a four-page
document, deletes exactly pages 1, 3 and 4; the malformed term `x`
contributes nothing and blocks nothing. -/
theorem bulk_delete_union_of_term_contributions_witness :
    pagesOf (applyBulkDeleteAll "1,x,3-4"
        [("a", [⟨"a-page-1", "t1", 1, false⟩, ⟨"a-page-2", "t2", 2, false⟩,
                ⟨"a-page-3", "t3", 3, false⟩, ⟨"a-page-4", "t4", 4, false⟩])]) "a"
      = [⟨"a-page-1", "t1", 1, true⟩, ⟨"a-page-2", "t2", 2, false⟩,
         ⟨"a-page-3", "t3", 3, true⟩, ⟨"a-page-4", "t4", 4, true⟩] :=
  (bulk_delete_union_of_term_contributions "1,x,3-4"
      [("a", [⟨"a-page-1", "t1", 1, false⟩, ⟨"a-page-2", "t2", 2, false⟩,
              ⟨"a-page-3", "t3", 3, false⟩, ⟨"a-page-4", "t4", 4, false⟩])]
      "a" (by decide) (by decide)).trans (by decide)

/-- C4: on every expression on which the source's range loops terminate,
bulk range application is monotonic and idempotent: applying the same
expression twice yields the same session as applying it once; on a
non-blank expression each descriptor's flag becomes
`deleted OR (pageNo in parsed set)`; and a set flag is never cleared
(the descriptor at the same position keeps `deleted = true`, its id and
its page number). -/
theorem bulk_delete_monotone_idempotent (input : String) (s : Session)
    (hterm : inputTerminates input = true) :
    applyBulkDeleteAll input (applyBulkDeleteAll input s)
      = applyBulkDeleteAll input s ∧
    ((trimChars input.toList).isEmpty = false →
      ∀ name, pagesOf (applyBulkDeleteAll input s) name =
        (pagesOf s name).map fun p =>
          { p with deleted := p.deleted ||
              decide (JsRat.ofNat p.pageNo ∈
                buildToDelete (splitOnChar ',' input.toList)) }) ∧
    (∀ (name : String) (i : Nat) (p : PageDescriptor),
      (pagesOf s name)[i]? = some p → p.deleted = true →
      ∃ q : PageDescriptor,
        (pagesOf (applyBulkDeleteAll input s) name)[i]? = some q ∧
        q.deleted = true ∧ q.id = p.id ∧ q.pageNo = p.pageNo) := by
  refine ⟨?_, fun hne name => applyBulk_pagesOf input s name hne, ?_⟩
  · cases hg : (trimChars input.toList).isEmpty with
    | true =>
      have h0 : applyBulkDeleteAll input s = s := by
        rw [applyBulkDeleteAll, if_pos hg]
      rw [h0]
      exact h0
    | false =>
      have hguard : ¬ ((trimChars input.toList).isEmpty = true) := by
        rw [hg]
        decide
      have hunfold : ∀ t : Session, applyBulkDeleteAll input t
          = t.map fun nd => (nd.1, nd.2.map fun p =>
              { p with deleted := p.deleted ||
                  decide (JsRat.ofNat p.pageNo ∈
                    buildToDelete (splitOnChar ',' input.toList)) }) := by
        intro t
        rw [applyBulkDeleteAll, if_neg hguard]
      rw [hunfold, hunfold, List.map_map]
      apply List.map_congr_left
      intro nd _
      simp only [Function.comp_apply]
      rw [List.map_map]
      apply congrArg
      apply List.map_congr_left
      intro p _
      exact bulkMark_twice _ p
  · intro name i p hp hdel
    cases hg : (trimChars input.toList).isEmpty with
    | true =>
      have h0 : applyBulkDeleteAll input s = s := by
        rw [applyBulkDeleteAll, if_pos hg]
      exact ⟨p, by rw [h0]; exact hp, hdel, rfl, rfl⟩
    | false =>
      have hmap := applyBulk_pagesOf input s name hg
      refine ⟨{ p with deleted := p.deleted ||
                  decide (JsRat.ofNat p.pageNo ∈
                    buildToDelete (splitOnChar ',' input.toList)) },
        ?_, ?_, rfl, rfl⟩
      · rw [hmap, List.getElem?_map, hp]
        rfl
      · rw [hdel]
        rfl

/-- C4 witness: at the expression `2.0` - which JavaScript coerces to
the number 2 - the application is idempotent and deletes exactly
page 2. -/
theorem bulk_delete_monotone_idempotent_witness :
    applyBulkDeleteAll "2.0" (applyBulkDeleteAll "2.0"
        [("a", [⟨"a-page-1", "t1", 1, false⟩, ⟨"a-page-2", "t2", 2, false⟩])])
      = applyBulkDeleteAll "2.0"
        [("a", [⟨"a-page-1", "t1", 1, false⟩, ⟨"a-page-2", "t2", 2, false⟩])] ∧
    pagesOf (applyBulkDeleteAll "2.0"
        [("a", [⟨"a-page-1", "t1", 1, false⟩, ⟨"a-page-2", "t2", 2, false⟩])]) "a"
      = [⟨"a-page-1", "t1", 1, false⟩, ⟨"a-page-2", "t2", 2, true⟩] := by
  have h := bulk_delete_monotone_idempotent "2.0"
    [("a", [⟨"a-page-1", "t1", 1, false⟩, ⟨"a-page-2", "t2", 2, false⟩])]
    (by decide)
  exact ⟨h.1, by decide⟩

/-- Closed form of the export loop when every non-deleted descriptor's
0-based index is in range: the accumulated output, followed by the
source page of each surviving descriptor in list order. -/
theorem exportPagesLoop_eq {α : Type} (src : List α) (dflt : α) :
    ∀ (pages : Doc) (acc : List α),
      (∀ p ∈ pages, p.deleted = false → p.pageNo - 1 < src.length) →
      exportPagesLoop src pages acc =
        some (acc ++ (pages.filter fun p => !p.deleted).map
          fun p => src.getD (p.pageNo - 1) dflt)
  | [], acc, _ => by simp [exportPagesLoop]
  | p :: rest, acc, h => by
    have hrest : ∀ q ∈ rest, q.deleted = false → q.pageNo - 1 < src.length :=
      fun q hq => h q (List.mem_cons_of_mem p hq)
    cases hd : p.deleted with
    | true =>
      rw [exportPagesLoop, if_pos hd,
        exportPagesLoop_eq src dflt rest acc hrest]
      simp [List.filter_cons, hd]
    | false =>
      have hlt : p.pageNo - 1 < src.length := h p (List.mem_cons_self p rest) hd
      have hget : src[p.pageNo - 1]? = some (src.getD (p.pageNo - 1) dflt) := by
        rw [List.getD_eq_getElem?_getD, List.getElem?_eq_getElem hlt]
        rfl
      rw [exportPagesLoop, if_neg (by rw [hd]; decide), hget]
      exact (exportPagesLoop_eq src dflt rest
          (acc ++ [src.getD (p.pageNo - 1) dflt]) hrest).trans
        (by simp [List.filter_cons, hd])

/-- If the export loop succeeds, the output length is the number of
surviving descriptors plus what was already accumulated. -/
theorem exportPagesLoop_length {α : Type} (src : List α) :
    ∀ (pages : Doc) (acc out : List α),
      exportPagesLoop src pages acc = some out →
      out.length = acc.length + ((pages.filter fun p => !p.deleted).length)
  | [], acc, out, h => by
    rw [exportPagesLoop] at h
    cases h
    simp
  | p :: rest, acc, out, h => by
    cases hd : p.deleted with
    | true =>
      rw [exportPagesLoop, if_pos hd] at h
      rw [exportPagesLoop_length src rest acc out h]
      simp [List.filter_cons, hd]
    | false =>
      rw [exportPagesLoop, if_neg (by rw [hd]; decide)] at h
      cases hget : src[p.pageNo - 1]? with
      | none => rw [hget] at h; cases h
      | some pg =>
        rw [hget] at h
        rw [exportPagesLoop_length src rest (acc ++ [pg]) out h]
        simp [List.filter_cons, hd]
        omega

/-- When every descriptor is deleted, the export loop copies nothing. -/
theorem exportPagesLoop_all_deleted {α : Type} (src : List α) :
    ∀ (pages : Doc) (acc : List α), (∀ p ∈ pages, p.deleted = true) →
      exportPagesLoop src pages acc = some acc
  | [], _, _ => rfl
  | p :: rest, acc, h => by
    rw [exportPagesLoop, if_pos (h p (List.mem_cons_self p rest))]
    exact exportPagesLoop_all_deleted src rest acc
      fun q hq => h q (List.mem_cons_of_mem p hq)

/-- C1: when every descriptor's 1-based `pageNo` addresses a source page
(the session invariant), the exported output is exactly the non-deleted
descriptors in the document's current list order, each mapped to the
source page at the 0-based position `pageNo - 1`. -/
theorem export_output_matches_descriptor_order {α : Type} (src : List α)
    (dflt : α) (pages : Doc)
    (h : ∀ p ∈ pages, 1 ≤ p.pageNo ∧ p.pageNo ≤ src.length) :
    exportDoc src pages =
      some ((pages.filter fun p => !p.deleted).map
        fun p => src.getD (p.pageNo - 1) dflt) := by
  rw [exportDoc, exportPagesLoop_eq src dflt pages []
    (fun p hp _ => by have := h p hp; omega)]
  rw [List.nil_append]

/-- C1 witness: the spec's example - original pages `[10, 20, 30]`
reordered to pages 3, 1, 2 with original page 1 marked deleted exports
original pages 3 and 2 in that order. -/
theorem export_output_matches_descriptor_order_witness :
    exportDoc [10, 20, 30]
      [⟨"a-page-3", "t3", 3, false⟩, ⟨"a-page-1", "t1", 1, true⟩,
       ⟨"a-page-2", "t2", 2, false⟩] = some [30, 20] :=
  (export_output_matches_descriptor_order [10, 20, 30] 0
      [⟨"a-page-3", "t3", 3, false⟩, ⟨"a-page-1", "t1", 1, true⟩,
       ⟨"a-page-2", "t2", 2, false⟩] (by decide)).trans (by decide)

/-- C2: whenever the export of a document succeeds its page count is the
number of descriptors with `deleted = false`; and a document whose
descriptors are all marked deleted exports successfully as a valid
zero-page output rather than an error. -/
theorem export_page_count_and_empty {α : Type} (src : List α) (pages : Doc) :
    (∀ out, exportDoc src pages = some out →
      out.length = ((pages.filter fun p => !p.deleted).length)) ∧
    ((∀ p ∈ pages, p.deleted = true) → exportDoc src pages = some []) := by
  constructor
  · intro out h
    simpa using exportPagesLoop_length src pages [] out h
  · intro h
    exact exportPagesLoop_all_deleted src pages [] h

/-- A per-document update whose function fixes the looked-up list is the
whole-session no-op, provided the session's keys are unique (JavaScript
object keys always are). -/
theorem updateDoc_self (file : String) (g : Doc → Doc) :
    ∀ s : Session, (s.map Prod.fst).Nodup →
      g (pagesOf s file) = pagesOf s file → updateDoc s file g = s
  | [], _, _ => rfl
  | (k, v) :: rest, hkeys, hfix => by
    rw [List.map_cons, List.nodup_cons] at hkeys
    rw [updateDoc_cons]
    by_cases hk : k = file
    · subst hk
      rw [pagesOf_cons, if_pos rfl] at hfix
      rw [if_pos rfl, hfix,
        updateDoc_of_not_mem_keys k g rest hkeys.1]
    · rw [pagesOf_cons, if_neg hk] at hfix
      rw [if_neg hk, updateDoc_self file g rest hkeys.2 hfix]

/-- C7: toggling `(file, n)` flips the deletion flag of exactly the
unique descriptor of that document whose original index is `n`, keeping
every other descriptor of the document and every other document
unchanged; and when the document holds no descriptor with original
index `n` (keys being unique), the whole session is left unchanged. -/
theorem toggle_delete_flips_unique (s : Session) (file : String) (n : Nat) :
    (∀ other, other ≠ file →
        pagesOf (toggleDelete file n s) other = pagesOf s other) ∧
    (∀ (pre : Doc) (p : PageDescriptor) (post : Doc),
        pagesOf s file = pre ++ p :: post → p.pageNo = n →
        (∀ q ∈ pre, q.pageNo ≠ n) → (∀ q ∈ post, q.pageNo ≠ n) →
        pagesOf (toggleDelete file n s) file =
          pre ++ { p with deleted := !p.deleted } :: post) ∧
    ((s.map Prod.fst).Nodup → (∀ q ∈ pagesOf s file, q.pageNo ≠ n) →
        toggleDelete file n s = s) := by
  refine ⟨fun other hother => ?_, fun pre p post hdec hp hpre hpost => ?_,
    fun hkeys hnone => ?_⟩
  · rw [toggleDelete, pagesOf_updateDoc s file _ other rfl, if_neg hother]
  · rw [toggleDelete, pagesOf_updateDoc s file _ file rfl, if_pos rfl, hdec,
      List.map_append, List.map_cons]
    have hpre' : pre.map (fun q =>
        if q.pageNo = n then { q with deleted := !q.deleted } else q) = pre := by
      have : pre.map (fun q =>
          if q.pageNo = n then { q with deleted := !q.deleted } else q)
          = pre.map id :=
        List.map_congr_left fun q hq => by rw [if_neg (hpre q hq)]; rfl
      rw [this, List.map_id]
    have hpost' : post.map (fun q =>
        if q.pageNo = n then { q with deleted := !q.deleted } else q) = post := by
      have : post.map (fun q =>
          if q.pageNo = n then { q with deleted := !q.deleted } else q)
          = post.map id :=
        List.map_congr_left fun q hq => by rw [if_neg (hpost q hq)]; rfl
      rw [this, List.map_id]
    rw [hpre', hpost', if_pos hp]
  · rw [toggleDelete]
    apply updateDoc_self file _ s hkeys
    have : (pagesOf s file).map (fun q =>
        if q.pageNo = n then { q with deleted := !q.deleted } else q)
        = (pagesOf s file).map id :=
      List.map_congr_left fun q hq => by rw [if_neg (hnone q hq)]; rfl
    rw [this, List.map_id]

/-- A found index is inside the list. -/
theorem findIdx?_lt_length {α : Type} {p : α → Bool} {l : List α} {i : Nat}
    (h : l.findIdx? p = some i) : i < l.length :=
  (List.findIdx?_eq_some_iff_findIdx_eq.mp h).1

/-- A list is a permutation of the element at a position consed onto the
list with that position erased. -/
theorem perm_cons_eraseIdx {α : Type} :
    ∀ (l : List α) (i : Nat) (x : α), l[i]? = some x →
      l.Perm (x :: l.eraseIdx i)
  | [], i, x, h => by simp at h
  | a :: t, 0, x, h => by
    obtain rfl : a = x := by simpa using h
    exact List.Perm.refl _
  | a :: t, i + 1, x, h => by
    have ht : t[i]? = some x := by simpa using h
    have ih := perm_cons_eraseIdx t i x ht
    exact List.Perm.trans (List.Perm.cons a ih) (List.Perm.swap x a _)

/-- Unfolding of `arrayMove` when both positions are present and the
source element exists. -/
theorem arrayMove_some_some (l : Doc) (i j : Nat) (x : PageDescriptor)
    (h : l[i]? = some x) :
    arrayMove l (some i) (some j) = (l.eraseIdx i).insertIdx j x := by
  show (match l[i]? with
    | some y => (l.eraseIdx i).insertIdx j y
    | none => l) = (l.eraseIdx i).insertIdx j x
  rw [h]

/-- The move performed by `onDragEnd` only permutes the document's
descriptor list. -/
theorem arrayMove_findIdx_perm (pages : Doc) (a o : String) :
    (arrayMove pages (pages.findIdx? fun p => p.id == a)
        (pages.findIdx? fun p => p.id == o)).Perm pages := by
  cases hf : pages.findIdx? (fun p => p.id == a) with
  | none => exact List.Perm.refl _
  | some i =>
    cases ho : pages.findIdx? (fun p => p.id == o) with
    | none => exact List.Perm.refl _
    | some j =>
      cases hx : pages[i]? with
      | none =>
        have hmatch : arrayMove pages (some i) (some j) = pages := by
          show (match pages[i]? with
            | some y => (pages.eraseIdx i).insertIdx j y
            | none => pages) = pages
          rw [hx]
        rw [hmatch]
      | some x =>
        have hj : j < pages.length := findIdx?_lt_length ho
        have hi : i < pages.length := findIdx?_lt_length hf
        have hlen : j ≤ (pages.eraseIdx i).length := by
          rw [List.length_eraseIdx_of_lt hi]
          omega
        rw [arrayMove_some_some pages i j x hx]
        exact List.Perm.trans (List.perm_insertIdx x _ hlen)
          (perm_cons_eraseIdx pages i x hx).symm

/-- One drag operation leaves every document's descriptor list a
permutation of what it was. -/
theorem onDragEnd_pagesOf_perm (file a : String) (o? : Option String)
    (s : Session) (name : String) :
    (pagesOf (onDragEnd file a o? s) name).Perm (pagesOf s name) := by
  cases o? with
  | none => exact List.Perm.refl _
  | some o =>
    by_cases hao : a = o
    · have h : onDragEnd file a (some o) s = s := by
        show (if a = o then s else updateDoc s file fun pages =>
          arrayMove pages (pages.findIdx? fun p => p.id == a)
            (pages.findIdx? fun p => p.id == o)) = s
        exact if_pos hao
      rw [h]
    · have h : onDragEnd file a (some o) s = updateDoc s file fun pages =>
          arrayMove pages (pages.findIdx? fun p => p.id == a)
            (pages.findIdx? fun p => p.id == o) := by
        show (if a = o then s else updateDoc s file fun pages =>
          arrayMove pages (pages.findIdx? fun p => p.id == a)
            (pages.findIdx? fun p => p.id == o)) = _
        exact if_neg hao
      rw [h, pagesOf_updateDoc s file _ name rfl]
      by_cases hnf : name = file
      · rw [if_pos hnf, hnf]
        exact arrayMove_findIdx_perm (pagesOf s file) a o
      · rw [if_neg hnf]

/-- C5: any sequence of reorder operations leaves each document's
descriptor list a permutation of the original one - in particular the
multiset of `(originalIndex, deleted)` pairs is unchanged, every moved
element travels with its id and deletion flag, and no `originalIndex`
is altered. -/
theorem reorder_preserves_page_multiset
    (ops : List (String × String × Option String)) (s : Session)
    (name : String) :
    (pagesOf (applyDrags ops s) name).Perm (pagesOf s name) ∧
    ((pagesOf (applyDrags ops s) name).map fun p => (p.pageNo, p.deleted)).Perm
      ((pagesOf s name).map fun p => (p.pageNo, p.deleted)) := by
  have main : ∀ (ops : List (String × String × Option String)) (t : Session),
      (pagesOf (applyDrags ops t) name).Perm (pagesOf t name) := by
    intro ops
    induction ops with
    | nil => exact fun t => List.Perm.refl _
    | cons op rest ih =>
      intro t
      exact (ih (onDragEnd op.1 op.2.1 op.2.2 t)).trans
        (onDragEnd_pagesOf_perm op.1 op.2.1 op.2.2 t name)
  exact ⟨main ops s, (main ops s).map _⟩

/-- Insertion at a valid position splits the list around the new
element. -/
theorem insertIdx_eq_take_cons_drop {α : Type} (x : α) :
    ∀ (n : Nat) (l : List α), n ≤ l.length →
      l.insertIdx n x = l.take n ++ x :: l.drop n
  | 0, l, _ => by simp
  | n + 1, [], h => absurd h (Nat.not_succ_le_zero n)
  | n + 1, a :: l, h => by
    simp only [List.insertIdx_succ_cons, List.take_succ_cons,
      List.drop_succ_cons, List.cons_append]
    rw [insertIdx_eq_take_cons_drop x n l (Nat.le_of_succ_le_succ h)]

/-- Erasing a present element and reinserting it at the same position
restores the list. -/
theorem erase_insert_self {α : Type} :
    ∀ (l : List α) (i : Nat) (x : α), l[i]? = some x →
      (l.eraseIdx i).insertIdx i x = l
  | [], i, x, h => by simp at h
  | a :: t, 0, x, h => by
    obtain rfl : a = x := by simpa using h
    rfl
  | a :: t, i + 1, x, h => by
    have ht : t[i]? = some x := by simpa using h
    exact congrArg (List.cons a) (erase_insert_self t i x ht)

/-- Forward move: erasing position `i` and inserting at `j > i` shifts
the elements strictly between them one slot towards the front. -/
theorem erase_insert_forward {α : Type} (l : List α) (i j : Nat) (x : α)
    (hx : l[i]? = some x) (hij : i < j) (hj : j < l.length) :
    (l.eraseIdx i).insertIdx j x
      = l.take i ++ ((l.drop (i + 1)).take (j - i) ++ x :: l.drop (j + 1)) := by
  obtain ⟨hi, -⟩ := List.getElem?_eq_some_iff.mp hx
  have hle : j ≤ (l.eraseIdx i).length := by
    rw [List.length_eraseIdx_of_lt hi]
    omega
  rw [insertIdx_eq_take_cons_drop x j _ hle, List.eraseIdx_eq_take_drop_succ,
    List.take_append_eq_append_take, List.drop_append_eq_append_drop,
    List.take_take, List.drop_take, List.drop_drop]
  have h1 : min j i = i := by omega
  have h2 : (l.take i).length = i := by
    rw [List.length_take]
    omega
  rw [h1, h2]
  have h3 : i - j = 0 := by omega
  have h4 : (i + 1) + (j - i) = j + 1 := by omega
  rw [h3, h4, List.take_zero, List.nil_append, List.append_assoc]

/-- Backward move: erasing position `i` and inserting at `j < i` shifts
the elements strictly between them one slot towards the back. -/
theorem erase_insert_backward {α : Type} (l : List α) (i j : Nat) (x : α)
    (hx : l[i]? = some x) (hji : j < i) :
    (l.eraseIdx i).insertIdx j x
      = l.take j ++ x :: ((l.drop j).take (i - j) ++ l.drop (i + 1)) := by
  obtain ⟨hi, -⟩ := List.getElem?_eq_some_iff.mp hx
  have hle : j ≤ (l.eraseIdx i).length := by
    rw [List.length_eraseIdx_of_lt hi]
    omega
  rw [insertIdx_eq_take_cons_drop x j _ hle, List.eraseIdx_eq_take_drop_succ,
    List.take_append_eq_append_take, List.drop_append_eq_append_drop,
    List.take_take, List.drop_take, List.drop_drop]
  have h1 : min j i = j := by omega
  have h2 : (l.take i).length = i := by
    rw [List.length_take]
    omega
  rw [h1, h2]
  have h3 : j - i = 0 := by omega
  rw [h3, List.take_zero, List.append_nil, Nat.add_zero]

/-- C6: the reorder operation is a no-op when there is no drop target,
when the dragged id equals the target id, when either id is absent from
the document's current order, or when the two located positions are
equal; otherwise it removes the dragged element and reinserts it at the
target element's original position, shifting exactly the elements
between the two positions by one slot. -/
theorem drag_move_semantics (s : Session) (file a o : String) :
    onDragEnd file a none s = s ∧
    onDragEnd file a (some a) s = s ∧
    (a ≠ o →
      (((pagesOf s file).findIdx? (fun p => p.id == a) = none ∨
        (pagesOf s file).findIdx? (fun p => p.id == o) = none) →
        pagesOf (onDragEnd file a (some o) s) file = pagesOf s file) ∧
      (∀ (i j : Nat) (x : PageDescriptor),
        (pagesOf s file).findIdx? (fun p => p.id == a) = some i →
        (pagesOf s file).findIdx? (fun p => p.id == o) = some j →
        (pagesOf s file)[i]? = some x →
        (i = j → pagesOf (onDragEnd file a (some o) s) file = pagesOf s file) ∧
        (i < j → pagesOf (onDragEnd file a (some o) s) file =
          (pagesOf s file).take i ++
            (((pagesOf s file).drop (i + 1)).take (j - i) ++
              x :: (pagesOf s file).drop (j + 1))) ∧
        (j < i → pagesOf (onDragEnd file a (some o) s) file =
          (pagesOf s file).take j ++
            x :: (((pagesOf s file).drop j).take (i - j) ++
              (pagesOf s file).drop (i + 1))))) := by
  refine ⟨rfl, ?_, fun hao => ?_⟩
  · show (if a = a then s else updateDoc s file fun pages =>
      arrayMove pages (pages.findIdx? fun p => p.id == a)
        (pages.findIdx? fun p => p.id == a)) = s
    exact if_pos rfl
  · have hunf : pagesOf (onDragEnd file a (some o) s) file
        = arrayMove (pagesOf s file)
            ((pagesOf s file).findIdx? fun p => p.id == a)
            ((pagesOf s file).findIdx? fun p => p.id == o) := by
      have h : onDragEnd file a (some o) s = updateDoc s file fun pages =>
          arrayMove pages (pages.findIdx? fun p => p.id == a)
            (pages.findIdx? fun p => p.id == o) := by
        show (if a = o then s else updateDoc s file fun pages =>
          arrayMove pages (pages.findIdx? fun p => p.id == a)
            (pages.findIdx? fun p => p.id == o)) = _
        exact if_neg hao
      rw [h, pagesOf_updateDoc s file _ file rfl, if_pos rfl]
    refine ⟨fun habs => ?_, fun i j x hfi hfo hx => ?_⟩
    · rw [hunf]
      rcases habs with h1 | h1
      · rw [h1]
        cases ho : (pagesOf s file).findIdx? (fun p => p.id == o) <;> rfl
      · rw [h1]
        cases hf : (pagesOf s file).findIdx? (fun p => p.id == a) <;> rfl
    · refine ⟨fun hij => ?_, fun hij => ?_, fun hji => ?_⟩
      · subst hij
        rw [hunf, hfi, hfo, arrayMove_some_some _ i i x hx,
          erase_insert_self _ i x hx]
      · rw [hunf, hfi, hfo, arrayMove_some_some _ i j x hx,
          erase_insert_forward _ i j x hx hij (findIdx?_lt_length hfo)]
      · rw [hunf, hfi, hfo, arrayMove_some_some _ i j x hx,
          erase_insert_backward _ i j x hx hji]

end PdfManager
